import Mathlib

/-!
Verification of the Monte Carlo capital-path simulator of the MattyIce
repository (`mmm_complete_backtest.py`).  The simulator is embedded
shallowly: Python floats become rationals (`ℚ`), and the global
`np.random.random()` stream becomes an explicit draw stream `u : ℕ → ℚ`
together with a cursor that is threaded through the loops exactly as the
Python interpreter consumes the stream.
-/

namespace MattyIce

/-- Constant `INITIAL_CAPITAL = 50000` from `mmm_complete_backtest.py`. -/
def INITIAL_CAPITAL : ℚ := 50000

/-- Constant `POSITION_SIZE = 0.25` from `mmm_complete_backtest.py`. -/
def POSITION_SIZE : ℚ := 1/4

/-- Constant `WIN_RATE = 0.85` from `mmm_complete_backtest.py`. -/
def WIN_RATE : ℚ := 85/100

/-- Constant `PREMIUM = 0.05` from `mmm_complete_backtest.py`. -/
def PREMIUM : ℚ := 5/100

/-- Constant `TAKE_PROFIT = 0.50` from `mmm_complete_backtest.py`. -/
def TAKE_PROFIT : ℚ := 1/2

/-- The loss branch of the source multiplies the premium by the literal
`0.3` (line 32 of `mmm_complete_backtest.py`), not by a named constant. -/
def LOSS_MULT : ℚ := 3/10

/-- Modelled from the spec: the spec's §3 `SimulationConfig` entity.  The
source fixes the parameters as module-level constants
(`INITIAL_CAPITAL`, `POSITION_SIZE`, `WIN_RATE`, `PREMIUM`, `TAKE_PROFIT`,
4 trades per month, 36 months); the spec generalizes them into an
immutable configuration record, which this structure mirrors. -/
structure SimulationConfig where
  initial_capital : ℚ
  position_fraction : ℚ
  win_probability : ℚ
  premium_fraction : ℚ
  take_profit_fraction : ℚ
  trades_per_month : ℕ
  months : ℕ

/-- Modelled from the spec: validity of a configuration, from the spec's §3
domain annotations: `initial_capital` positive, `position_fraction` in
(0,1], `win_probability` in [0,1], `premium_fraction` in (0,1),
`take_profit_fraction` in (0,1]. -/
def SimulationConfig.Valid (cfg : SimulationConfig) : Prop :=
  0 < cfg.initial_capital ∧
  0 < cfg.position_fraction ∧ cfg.position_fraction ≤ 1 ∧
  0 ≤ cfg.win_probability ∧ cfg.win_probability ≤ 1 ∧
  0 < cfg.premium_fraction ∧ cfg.premium_fraction < 1 ∧
  0 < cfg.take_profit_fraction ∧ cfg.take_profit_fraction ≤ 1

instance (cfg : SimulationConfig) : Decidable cfg.Valid := by
  unfold SimulationConfig.Valid
  infer_instance

/-- The config the source `run_simulation` actually runs: the module
constants of `mmm_complete_backtest.py` with 4 trades per month for 36
months (lines 22-24). -/
def mmmConfig : SimulationConfig :=
  ⟨INITIAL_CAPITAL, POSITION_SIZE, WIN_RATE, PREMIUM, TAKE_PROFIT, 4, 36⟩

/-- One simulated trade: lines 25-32 of `mmm_complete_backtest.py`.
`position = capital * POSITION_SIZE`; if the drawn `u` is below the win
probability the capital gains `position * PREMIUM * TAKE_PROFIT`,
otherwise it loses `position * PREMIUM * 0.3`. -/
def trade (cfg : SimulationConfig) (capital : ℚ) (u : ℚ) : ℚ :=
  let position := capital * cfg.position_fraction
  if u < cfg.win_probability then
    capital + position * cfg.premium_fraction * cfg.take_profit_fraction
  else
    capital - position * cfg.premium_fraction * LOSS_MULT

/-- The inner `for _ in range(4)` trade loop (lines 24-32), generalized to
`trades_per_month` iterations.  The state is (capital, RNG cursor); each
iteration consumes one draw from the stream `u`. -/
def runTrades (cfg : SimulationConfig) (u : ℕ → ℚ) : ℕ → ℚ × ℕ → ℚ × ℕ
  | 0, s => s
  | n + 1, s => runTrades cfg u n (trade cfg s.1 (u s.2), s.2 + 1)

/-- The `for month in range(36)` loop (lines 22-34), generalized to
`months` iterations: after each month's trades, the current capital is
appended to the monthly path.  Returns the final (capital, cursor) state
and the path. -/
def runMonths (cfg : SimulationConfig) (u : ℕ → ℚ) : ℕ → ℚ × ℕ → (ℚ × ℕ) × List ℚ
  | 0, s => (s, [])
  | n + 1, s =>
    let s1 := runTrades cfg u cfg.trades_per_month s
    let r := runMonths cfg u n s1
    (r.1, s1.1 :: r.2)

/-- One Monte Carlo run (lines 19-36): capital starts at
`initial_capital`, and the run produces the pair `(final capital, monthly
path)` — the spec's `SimulationResult` — together with the updated RNG
cursor. -/
def runOne (cfg : SimulationConfig) (u : ℕ → ℚ) (i : ℕ) : (ℚ × List ℚ) × ℕ :=
  let r := runMonths cfg u cfg.months (cfg.initial_capital, i)
  ((r.1.1, r.2), r.1.2)

/-- The outer `for _ in range(runs)` loop of `run_simulation`
(lines 14-38): `n` independent runs, sharing one RNG stream whose cursor
carries over from run to run, as `np.random` does. -/
def run_simulation (cfg : SimulationConfig) (u : ℕ → ℚ) : ℕ → ℕ → List (ℚ × List ℚ)
  | 0, _ => []
  | n + 1, i =>
    let r := runOne cfg u i
    r.1 :: run_simulation cfg u n r.2

/-- A fixed concrete draw stream, used for witnesses. -/
def uHalf : ℕ → ℚ := fun _ => 1/2

/-- The multiplicative factor a winning trade applies to the capital. -/
def winFactor (cfg : SimulationConfig) : ℚ :=
  1 + cfg.position_fraction * cfg.premium_fraction * cfg.take_profit_fraction

/-- The multiplicative factor a losing trade applies to the capital. -/
def lossFactor (cfg : SimulationConfig) : ℚ :=
  1 - cfg.position_fraction * cfg.premium_fraction * LOSS_MULT

/-- Config `mmmConfig` with the win probability forced to 1 (witness config). -/
def cfgAllWin : SimulationConfig :=
  ⟨INITIAL_CAPITAL, POSITION_SIZE, 1, PREMIUM, TAKE_PROFIT, 4, 36⟩

/-- Config `mmmConfig` with the win probability forced to 0 (witness config). -/
def cfgAllLose : SimulationConfig :=
  ⟨INITIAL_CAPITAL, POSITION_SIZE, 0, PREMIUM, TAKE_PROFIT, 4, 36⟩

/-- Config `mmmConfig` with no trades and no months (witness config). -/
def cfgEmpty : SimulationConfig :=
  ⟨INITIAL_CAPITAL, POSITION_SIZE, WIN_RATE, PREMIUM, TAKE_PROFIT, 0, 0⟩

/-- Config `mmmConfig` with zero trades per month but one month (counterexample
config for the path-length claim). -/
def cfgNoTrades : SimulationConfig :=
  ⟨INITIAL_CAPITAL, POSITION_SIZE, WIN_RATE, PREMIUM, TAKE_PROFIT, 0, 1⟩

/-- A one-month, one-trade config small enough to evaluate in witnesses. -/
def cfgTiny : SimulationConfig :=
  ⟨100, 1/2, 1/2, 1/2, 1/2, 1, 1⟩

/-- The same configuration with the initial capital scaled by `a`. -/
def scaleCapital (a : ℚ) (cfg : SimulationConfig) : SimulationConfig :=
  ⟨a * cfg.initial_capital, cfg.position_fraction, cfg.win_probability,
    cfg.premium_fraction, cfg.take_profit_fraction, cfg.trades_per_month, cfg.months⟩

/-- All win/loss outcome vectors of length `n` (the outcome of a trade
depends on its draw `u` only through the comparison `u < win_probability`). -/
def boolVecs : ℕ → List (List Bool)
  | 0 => [[]]
  | n + 1 => (boolVecs n).map (List.cons true) ++ (boolVecs n).map (List.cons false)

/-- Probability of one outcome under a uniform draw on [0,1):
`P(u < win_probability) = win_probability` for `win_probability ∈ [0,1]`. -/
def probWeight (cfg : SimulationConfig) (b : Bool) : ℚ :=
  if b then cfg.win_probability else 1 - cfg.win_probability

/-- The multiplicative capital factor of one outcome. -/
def tradeFactor (cfg : SimulationConfig) (b : Bool) : ℚ :=
  if b then winFactor cfg else lossFactor cfg

/-- Probability of an outcome vector (independent trades). -/
def pathWeight (cfg : SimulationConfig) (bs : List Bool) : ℚ :=
  (bs.map (probWeight cfg)).prod

/-- The total multiplicative capital factor of an outcome vector. -/
def pathMul (cfg : SimulationConfig) (bs : List Bool) : ℚ :=
  (bs.map (tradeFactor cfg)).prod

/-- Expected final capital after `n` trades: the sum, over all outcome
vectors, of the vector's probability times the final capital it yields. -/
def expectedFinal (cfg : SimulationConfig) (n : ℕ) : ℚ :=
  ((boolVecs n).map fun bs => pathWeight cfg bs * (cfg.initial_capital * pathMul cfg bs)).sum

/-- Expected per-trade capital factor. -/
def meanFactor (cfg : SimulationConfig) : ℚ :=
  cfg.win_probability * winFactor cfg + (1 - cfg.win_probability) * lossFactor cfg

/-- The win/loss outcomes the draw stream `u` produces for the `n` trades
starting at cursor `i`. -/
def decisionsOf (cfg : SimulationConfig) (u : ℕ → ℚ) : ℕ → ℕ → List Bool
  | _, 0 => []
  | i, n + 1 => decide (u i < cfg.win_probability) :: decisionsOf cfg u (i + 1) n

lemma trade_eq_mul (cfg : SimulationConfig) (c u : ℚ) :
    trade cfg c u = c * (if u < cfg.win_probability then winFactor cfg else lossFactor cfg) := by
  unfold trade winFactor lossFactor
  split <;> ring

lemma runTrades_snd (cfg : SimulationConfig) (u : ℕ → ℚ) :
    ∀ (n : ℕ) (s : ℚ × ℕ), (runTrades cfg u n s).2 = s.2 + n
  | 0, s => by simp [runTrades]
  | n + 1, s => by
    show (runTrades cfg u n (trade cfg s.1 (u s.2), s.2 + 1)).2 = s.2 + (n + 1)
    rw [runTrades_snd cfg u n]
    omega

/-- C1: in each simulated trade, with `u` the next uniform draw consumed
from the stream, if `u < win_probability` the capital increases by
`capital * position_fraction * premium_fraction * take_profit_fraction`,
and otherwise it decreases by
`capital * position_fraction * premium_fraction * 0.3`; the trade loop
`runTrades` is the one body every month of every run executes. -/
theorem C1_trade_update (cfg : SimulationConfig) (u : ℕ → ℚ) (n : ℕ) (c : ℚ) (i : ℕ) :
    runTrades cfg u (n + 1) (c, i) =
      (if u (i + n) < cfg.win_probability then
        (runTrades cfg u n (c, i)).1 +
          (runTrades cfg u n (c, i)).1 * cfg.position_fraction * cfg.premium_fraction *
            cfg.take_profit_fraction
      else
        (runTrades cfg u n (c, i)).1 -
          (runTrades cfg u n (c, i)).1 * cfg.position_fraction * cfg.premium_fraction * LOSS_MULT,
      i + n + 1) := by
  induction n generalizing c i with
  | zero =>
    show (trade cfg c (u i), i + 1) = _
    simp only [runTrades, Nat.add_zero]
    rfl
  | succ n ih =>
    show runTrades cfg u (n + 1) (trade cfg c (u i), i + 1) = _
    rw [ih]
    have h1 : i + 1 + n = i + (n + 1) := by omega
    rw [h1]
    rfl

/-- C3: the simulator is a pure function of the configuration, the run
count, and the RNG stream: two calls whose streams agree pointwise (as
the streams derived from equal seeds do) produce identical result lists. -/
theorem C3_deterministic (cfg : SimulationConfig) (runs i : ℕ) (u v : ℕ → ℚ)
    (h : ∀ n, u n = v n) :
    run_simulation cfg u runs i = run_simulation cfg v runs i := by
  have huv : u = v := funext h
  rw [huv]

theorem C3_deterministic_witness :
    (∀ n : ℕ, uHalf n = uHalf n) ∧
      run_simulation mmmConfig uHalf 1 0 = run_simulation mmmConfig uHalf 1 0 :=
  ⟨fun _ => rfl, C3_deterministic mmmConfig 1 0 uHalf uHalf fun _ => rfl⟩

lemma winFactor_ge_one (cfg : SimulationConfig) (hv : cfg.Valid) : 1 ≤ winFactor cfg := by
  obtain ⟨-, hpf0, -, -, -, hpr0, -, htp0, -⟩ := hv
  unfold winFactor
  nlinarith [mul_pos (mul_pos hpf0 hpr0) htp0]

lemma winFactor_pos (cfg : SimulationConfig) (hv : cfg.Valid) : 0 < winFactor cfg :=
  lt_of_lt_of_le one_pos (winFactor_ge_one cfg hv)

lemma lossFactor_pos (cfg : SimulationConfig) (hv : cfg.Valid) : 0 < lossFactor cfg := by
  obtain ⟨-, hpf0, hpf1, -, -, hpr0, hpr1, -, -⟩ := hv
  have h1 : cfg.position_fraction * cfg.premium_fraction ≤ cfg.premium_fraction :=
    mul_le_of_le_one_left hpr0.le hpf1
  unfold lossFactor LOSS_MULT
  linarith

lemma lossFactor_le_one (cfg : SimulationConfig) (hv : cfg.Valid) : lossFactor cfg ≤ 1 := by
  obtain ⟨-, hpf0, -, -, -, hpr0, -, -, -⟩ := hv
  unfold lossFactor LOSS_MULT
  nlinarith [mul_pos hpf0 hpr0]

lemma trade_pos (cfg : SimulationConfig) (hv : cfg.Valid) (c u : ℚ) (hc : 0 < c) :
    0 < trade cfg c u := by
  rw [trade_eq_mul]
  split
  · exact mul_pos hc (winFactor_pos cfg hv)
  · exact mul_pos hc (lossFactor_pos cfg hv)

lemma runTrades_pos (cfg : SimulationConfig) (hv : cfg.Valid) (u : ℕ → ℚ) :
    ∀ (n : ℕ) (s : ℚ × ℕ), 0 < s.1 → 0 < (runTrades cfg u n s).1
  | 0, _, hc => hc
  | n + 1, s, hc =>
    runTrades_pos cfg hv u n (trade cfg s.1 (u s.2), s.2 + 1) (trade_pos cfg hv s.1 (u s.2) hc)

lemma runMonths_pos (cfg : SimulationConfig) (hv : cfg.Valid) (u : ℕ → ℚ) :
    ∀ (m : ℕ) (s : ℚ × ℕ), 0 < s.1 →
      0 < (runMonths cfg u m s).1.1 ∧ ∀ x ∈ (runMonths cfg u m s).2, 0 < x
  | 0, _, hc => ⟨hc, by simp [runMonths]⟩
  | m + 1, s, hc => by
    have h1 : 0 < (runTrades cfg u cfg.trades_per_month s).1 :=
      runTrades_pos cfg hv u cfg.trades_per_month s hc
    have ih := runMonths_pos cfg hv u m (runTrades cfg u cfg.trades_per_month s) h1
    refine ⟨ih.1, ?_⟩
    intro x hx
    rcases List.mem_cons.mp hx with h | h
    · exact h ▸ h1
    · exact ih.2 x h

lemma runOne_pos (cfg : SimulationConfig) (hv : cfg.Valid) (u : ℕ → ℚ) (i : ℕ) :
    0 < (runOne cfg u i).1.1 ∧ ∀ x ∈ (runOne cfg u i).1.2, 0 < x :=
  runMonths_pos cfg hv u cfg.months (cfg.initial_capital, i) hv.1

/-- C2 refutation: no valid configuration and no draw sequence in [0,1)
ever drives a path entry negative — every trade multiplies the capital by
a positive factor, so capital stays strictly positive. -/
theorem C2_counterexample :
    ¬ ∃ (cfg : SimulationConfig) (u : ℕ → ℚ),
        cfg.Valid ∧ (∀ n, 0 ≤ u n ∧ u n < 1) ∧
          ∃ x ∈ (runOne cfg u 0).1.2, x < 0 := by
  rintro ⟨cfg, u, hv, -, x, hx, hneg⟩
  exact absurd ((runOne_pos cfg hv u 0).2 x hx) (not_lt.mpr hneg.le)

/-- C2 amended: the source applies no floor to the capital, but for every
valid configuration the capital is strictly positive at every point of
every path (and at the end), so it can never become negative. -/
theorem C2_capital_stays_positive (cfg : SimulationConfig) (u : ℕ → ℚ) (i : ℕ)
    (hv : cfg.Valid) :
    0 < (runOne cfg u i).1.1 ∧ ∀ x ∈ (runOne cfg u i).1.2, 0 < x :=
  runOne_pos cfg hv u i

theorem C2_capital_stays_positive_witness :
    mmmConfig.Valid ∧
      (0 < (runOne mmmConfig uHalf 0).1.1 ∧ ∀ x ∈ (runOne mmmConfig uHalf 0).1.2, 0 < x) :=
  have hv : mmmConfig.Valid := by
    refine ⟨?_, ?_, ?_, ?_, ?_, ?_, ?_, ?_, ?_⟩ <;>
      norm_num [mmmConfig, INITIAL_CAPITAL, POSITION_SIZE, WIN_RATE, PREMIUM, TAKE_PROFIT]
  ⟨hv, C2_capital_stays_positive mmmConfig uHalf 0 hv⟩

lemma runTrades_le_of_wins (cfg : SimulationConfig) (u : ℕ → ℚ)
    (hWF : 1 ≤ winFactor cfg) (hwin : ∀ k, u k < cfg.win_probability) :
    ∀ (n : ℕ) (s : ℚ × ℕ), 0 ≤ s.1 → s.1 ≤ (runTrades cfg u n s).1
  | 0, _, _ => le_refl _
  | n + 1, s, hc => by
    have hstep : s.1 ≤ trade cfg s.1 (u s.2) := by
      rw [trade_eq_mul, if_pos (hwin s.2)]
      exact le_mul_of_one_le_right hc hWF
    exact le_trans hstep
      (runTrades_le_of_wins cfg u hWF hwin n (trade cfg s.1 (u s.2), s.2 + 1)
        (le_trans hc hstep))

lemma runMonths_chain_le (cfg : SimulationConfig) (u : ℕ → ℚ)
    (hWF : 1 ≤ winFactor cfg) (hwin : ∀ k, u k < cfg.win_probability) :
    ∀ (m : ℕ) (s : ℚ × ℕ), 0 ≤ s.1 →
      List.Chain' (· ≤ ·) (s.1 :: (runMonths cfg u m s).2)
  | 0, s, _ => by simp [runMonths]
  | m + 1, s, hc => by
    have h1 : s.1 ≤ (runTrades cfg u cfg.trades_per_month s).1 :=
      runTrades_le_of_wins cfg u hWF hwin cfg.trades_per_month s hc
    have ih := runMonths_chain_le cfg u hWF hwin m
      (runTrades cfg u cfg.trades_per_month s) (le_trans hc h1)
    exact List.chain'_cons.mpr ⟨h1, ih⟩

/-- C4: with `win_probability = 1` and draws in [0,1), every trade wins,
so every simulated path is monotonically non-decreasing starting from the
initial capital. -/
theorem C4_path_nondecreasing (cfg : SimulationConfig) (u : ℕ → ℚ) (i : ℕ)
    (hv : cfg.Valid) (hw : cfg.win_probability = 1) (hu : ∀ n, 0 ≤ u n ∧ u n < 1) :
    List.Chain' (· ≤ ·) (cfg.initial_capital :: (runOne cfg u i).1.2) := by
  have hwin : ∀ k, u k < cfg.win_probability := fun k => by
    rw [hw]
    exact (hu k).2
  exact runMonths_chain_le cfg u (winFactor_ge_one cfg hv) hwin cfg.months
    (cfg.initial_capital, i) hv.1.le

theorem C4_path_nondecreasing_witness :
    cfgAllWin.Valid ∧ cfgAllWin.win_probability = 1 ∧
      (∀ n, 0 ≤ uHalf n ∧ uHalf n < 1) ∧
      List.Chain' (· ≤ ·) (cfgAllWin.initial_capital :: (runOne cfgAllWin uHalf 0).1.2) :=
  have hv : cfgAllWin.Valid := by
    refine ⟨?_, ?_, ?_, ?_, ?_, ?_, ?_, ?_, ?_⟩ <;>
      norm_num [cfgAllWin, INITIAL_CAPITAL, POSITION_SIZE, PREMIUM, TAKE_PROFIT]
  have hu : ∀ n : ℕ, 0 ≤ uHalf n ∧ uHalf n < 1 := fun _ => by norm_num [uHalf]
  ⟨hv, rfl, hu, C4_path_nondecreasing cfgAllWin uHalf 0 hv rfl hu⟩

lemma runTrades_ge_of_losses (cfg : SimulationConfig) (u : ℕ → ℚ)
    (hLF0 : 0 ≤ lossFactor cfg) (hLF1 : lossFactor cfg ≤ 1)
    (hlose : ∀ k, cfg.win_probability ≤ u k) :
    ∀ (n : ℕ) (s : ℚ × ℕ),
      0 ≤ s.1 → 0 ≤ (runTrades cfg u n s).1 ∧ (runTrades cfg u n s).1 ≤ s.1
  | 0, _, hc => ⟨hc, le_refl _⟩
  | n + 1, s, hc => by
    have hs : trade cfg s.1 (u s.2) = s.1 * lossFactor cfg := by
      rw [trade_eq_mul, if_neg (not_lt.mpr (hlose s.2))]
    have h0 : 0 ≤ trade cfg s.1 (u s.2) := by
      rw [hs]
      exact mul_nonneg hc hLF0
    have h1 : trade cfg s.1 (u s.2) ≤ s.1 := by
      rw [hs]
      exact mul_le_of_le_one_right hc hLF1
    have ih := runTrades_ge_of_losses cfg u hLF0 hLF1 hlose n
      (trade cfg s.1 (u s.2), s.2 + 1) h0
    exact ⟨ih.1, le_trans ih.2 h1⟩

lemma runMonths_chain_ge (cfg : SimulationConfig) (u : ℕ → ℚ)
    (hLF0 : 0 ≤ lossFactor cfg) (hLF1 : lossFactor cfg ≤ 1)
    (hlose : ∀ k, cfg.win_probability ≤ u k) :
    ∀ (m : ℕ) (s : ℚ × ℕ), 0 ≤ s.1 →
      List.Chain' (· ≥ ·) (s.1 :: (runMonths cfg u m s).2)
  | 0, s, _ => by simp [runMonths]
  | m + 1, s, hc => by
    have h1 := runTrades_ge_of_losses cfg u hLF0 hLF1 hlose cfg.trades_per_month s hc
    have ih := runMonths_chain_ge cfg u hLF0 hLF1 hlose m
      (runTrades cfg u cfg.trades_per_month s) h1.1
    exact List.chain'_cons.mpr ⟨h1.2, ih⟩

/-- C5: with `win_probability = 0` and non-negative draws, every trade
loses, so every simulated path is monotonically non-increasing starting
from the initial capital. -/
theorem C5_path_nonincreasing (cfg : SimulationConfig) (u : ℕ → ℚ) (i : ℕ)
    (hv : cfg.Valid) (hw : cfg.win_probability = 0) (hu : ∀ n, 0 ≤ u n) :
    List.Chain' (· ≥ ·) (cfg.initial_capital :: (runOne cfg u i).1.2) := by
  have hlose : ∀ k, cfg.win_probability ≤ u k := fun k => by
    rw [hw]
    exact hu k
  exact runMonths_chain_ge cfg u (lossFactor_pos cfg hv).le (lossFactor_le_one cfg hv)
    hlose cfg.months (cfg.initial_capital, i) hv.1.le

theorem C5_path_nonincreasing_witness :
    cfgAllLose.Valid ∧ cfgAllLose.win_probability = 0 ∧ (∀ n, 0 ≤ uHalf n) ∧
      List.Chain' (· ≥ ·) (cfgAllLose.initial_capital :: (runOne cfgAllLose uHalf 0).1.2) :=
  have hv : cfgAllLose.Valid := by
    refine ⟨?_, ?_, ?_, ?_, ?_, ?_, ?_, ?_, ?_⟩ <;>
      norm_num [cfgAllLose, INITIAL_CAPITAL, POSITION_SIZE, PREMIUM, TAKE_PROFIT]
  have hu : ∀ n : ℕ, 0 ≤ uHalf n := fun _ => by norm_num [uHalf]
  ⟨hv, rfl, hu, C5_path_nonincreasing cfgAllLose uHalf 0 hv rfl hu⟩

lemma runMonths_no_trades (cfg : SimulationConfig) (u : ℕ → ℚ)
    (h : cfg.trades_per_month = 0) :
    ∀ (m : ℕ) (s : ℚ × ℕ), runMonths cfg u m s = (s, List.replicate m s.1)
  | 0, s => by simp [runMonths]
  | m + 1, s => by
    simp only [runMonths, h, runTrades]
    rw [runMonths_no_trades cfg u h m s]
    simp [List.replicate_succ]

/-- C6 refutation: with `trades_per_month = 0` but `months = 1` the
simulator still appends the untouched capital once per month, so the path
has length 1, not 0. -/
theorem C6_counterexample :
    (cfgNoTrades.trades_per_month = 0 ∨ cfgNoTrades.months = 0) ∧
      ((runOne cfgNoTrades uHalf 0).1.2).length = 1 ∧
      ¬ ((runOne cfgNoTrades uHalf 0).1.2).length = 0 :=
  have h1 : ((runOne cfgNoTrades uHalf 0).1.2).length = 1 := rfl
  ⟨Or.inl rfl, h1, by omega⟩

/-- C6 amended: with `months = 0` the path is empty and the final capital
is the initial capital; with `trades_per_month = 0` the final capital is
the initial capital but the path has one (unchanged) entry per month. -/
theorem C6_empty_schedule (cfg : SimulationConfig) (u : ℕ → ℚ) (i : ℕ) :
    (cfg.months = 0 → (runOne cfg u i).1 = (cfg.initial_capital, [])) ∧
      (cfg.trades_per_month = 0 →
        (runOne cfg u i).1 = (cfg.initial_capital, List.replicate cfg.months cfg.initial_capital)) := by
  constructor
  · intro h
    unfold runOne
    rw [h]
    rfl
  · intro h
    unfold runOne
    rw [runMonths_no_trades cfg u h]

theorem C6_empty_schedule_witness :
    cfgEmpty.months = 0 ∧ cfgEmpty.trades_per_month = 0 ∧
      (runOne cfgEmpty uHalf 0).1 = (cfgEmpty.initial_capital, []) ∧
      (runOne cfgEmpty uHalf 0).1 =
        (cfgEmpty.initial_capital, List.replicate cfgEmpty.months cfgEmpty.initial_capital) :=
  ⟨rfl, rfl, (C6_empty_schedule cfgEmpty uHalf 0).1 rfl, (C6_empty_schedule cfgEmpty uHalf 0).2 rfl⟩

lemma trade_scaleCapital (a : ℚ) (cfg : SimulationConfig) (c u : ℚ) :
    trade (scaleCapital a cfg) c u = trade cfg c u := rfl

lemma runTrades_scaleCapital (a : ℚ) (cfg : SimulationConfig) (u : ℕ → ℚ) :
    ∀ (n : ℕ) (s : ℚ × ℕ), runTrades (scaleCapital a cfg) u n s = runTrades cfg u n s
  | 0, _ => rfl
  | n + 1, s => by
    show runTrades (scaleCapital a cfg) u n (trade (scaleCapital a cfg) s.1 (u s.2), s.2 + 1) =
      runTrades cfg u n (trade cfg s.1 (u s.2), s.2 + 1)
    rw [trade_scaleCapital, runTrades_scaleCapital a cfg u n]

lemma runMonths_scaleCapital (a : ℚ) (cfg : SimulationConfig) (u : ℕ → ℚ) :
    ∀ (m : ℕ) (s : ℚ × ℕ), runMonths (scaleCapital a cfg) u m s = runMonths cfg u m s
  | 0, _ => rfl
  | m + 1, s => by
    simp only [runMonths]
    rw [show (scaleCapital a cfg).trades_per_month = cfg.trades_per_month from rfl,
      runTrades_scaleCapital a cfg u, runMonths_scaleCapital a cfg u m]

lemma trade_smul (cfg : SimulationConfig) (a c u : ℚ) :
    trade cfg (a * c) u = a * trade cfg c u := by
  rw [trade_eq_mul, trade_eq_mul]
  ring

lemma runTrades_smul (cfg : SimulationConfig) (u : ℕ → ℚ) (a : ℚ) :
    ∀ (n : ℕ) (c : ℚ) (i : ℕ),
      runTrades cfg u n (a * c, i) =
        (a * (runTrades cfg u n (c, i)).1, (runTrades cfg u n (c, i)).2)
  | 0, _, _ => rfl
  | n + 1, c, i => by
    show runTrades cfg u n (trade cfg (a * c) (u i), i + 1) = _
    rw [trade_smul, runTrades_smul cfg u a n (trade cfg c (u i)) (i + 1)]
    rfl

lemma runMonths_smul (cfg : SimulationConfig) (u : ℕ → ℚ) (a : ℚ) :
    ∀ (m : ℕ) (c : ℚ) (i : ℕ),
      runMonths cfg u m (a * c, i) =
        ((a * (runMonths cfg u m (c, i)).1.1, (runMonths cfg u m (c, i)).1.2),
          (runMonths cfg u m (c, i)).2.map (fun x => a * x))
  | 0, _, _ => by simp [runMonths]
  | m + 1, c, i => by
    simp only [runMonths]
    rw [runTrades_smul cfg u a cfg.trades_per_month c i]
    rw [runMonths_smul cfg u a m (runTrades cfg u cfg.trades_per_month (c, i)).1
      (runTrades cfg u cfg.trades_per_month (c, i)).2]
    simp [List.map_cons]

/-- C9: the simulator is homogeneous in the initial capital — scaling the
initial capital by `a > 0` scales every path entry and the final capital
by `a`, for any fixed draw stream. -/
theorem C9_homogeneous (cfg : SimulationConfig) (a : ℚ) (u : ℕ → ℚ) (i : ℕ)
    (_ha : 0 < a) :
    (runOne (scaleCapital a cfg) u i).1.1 = a * (runOne cfg u i).1.1 ∧
      (runOne (scaleCapital a cfg) u i).1.2 = (runOne cfg u i).1.2.map (fun x => a * x) := by
  constructor
  · show (runMonths (scaleCapital a cfg) u cfg.months (a * cfg.initial_capital, i)).1.1 =
      a * (runMonths cfg u cfg.months (cfg.initial_capital, i)).1.1
    rw [runMonths_scaleCapital a cfg u, runMonths_smul cfg u a cfg.months cfg.initial_capital i]
  · show (runMonths (scaleCapital a cfg) u cfg.months (a * cfg.initial_capital, i)).2 =
      (runMonths cfg u cfg.months (cfg.initial_capital, i)).2.map (fun x => a * x)
    rw [runMonths_scaleCapital a cfg u, runMonths_smul cfg u a cfg.months cfg.initial_capital i]

theorem C9_homogeneous_witness :
    (0 : ℚ) < 2 ∧
      ((runOne (scaleCapital 2 mmmConfig) uHalf 0).1.1 = 2 * (runOne mmmConfig uHalf 0).1.1 ∧
        (runOne (scaleCapital 2 mmmConfig) uHalf 0).1.2 =
          (runOne mmmConfig uHalf 0).1.2.map (fun x => 2 * x)) :=
  ⟨by norm_num, C9_homogeneous mmmConfig 2 uHalf 0 (by norm_num)⟩

lemma runMonths_path_length (cfg : SimulationConfig) (u : ℕ → ℚ) :
    ∀ (m : ℕ) (s : ℚ × ℕ), (runMonths cfg u m s).2.length = m
  | 0, _ => rfl
  | m + 1, s => by
    show ((runTrades cfg u cfg.trades_per_month s).1 ::
      (runMonths cfg u m (runTrades cfg u cfg.trades_per_month s)).2).length = m + 1
    rw [List.length_cons, runMonths_path_length cfg u m]

lemma runMonths_getLast (cfg : SimulationConfig) (u : ℕ → ℚ) :
    ∀ (m : ℕ) (s : ℚ × ℕ),
      (runMonths cfg u (m + 1) s).2.getLast? = some (runMonths cfg u (m + 1) s).1.1
  | 0, s => rfl
  | m + 1, s => by
    have ih := runMonths_getLast cfg u m (runTrades cfg u cfg.trades_per_month s)
    show ((runTrades cfg u cfg.trades_per_month s).1 ::
        (runMonths cfg u (m + 1) (runTrades cfg u cfg.trades_per_month s)).2).getLast? =
      some (runMonths cfg u (m + 1) (runTrades cfg u cfg.trades_per_month s)).1.1
    cases hp : (runMonths cfg u (m + 1) (runTrades cfg u cfg.trades_per_month s)).2 with
    | nil => rw [hp] at ih; simp at ih
    | cons b l =>
      rw [hp] at ih
      rw [List.getLast?_cons_cons]
      exact ih

lemma run_simulation_length (cfg : SimulationConfig) (u : ℕ → ℚ) :
    ∀ (n i : ℕ), (run_simulation cfg u n i).length = n
  | 0, _ => rfl
  | n + 1, i => by
    show ((runOne cfg u i).1 :: run_simulation cfg u n (runOne cfg u i).2).length = n + 1
    rw [List.length_cons, run_simulation_length cfg u n]

lemma run_simulation_mem (cfg : SimulationConfig) (u : ℕ → ℚ) :
    ∀ (n i : ℕ) (r : ℚ × List ℚ), r ∈ run_simulation cfg u n i →
      ∃ j, r = (runOne cfg u j).1
  | 0, _, _, hr => by simp [run_simulation] at hr
  | n + 1, i, r, hr => by
    rcases List.mem_cons.mp hr with h | h
    · exact ⟨i, h⟩
    · exact run_simulation_mem cfg u n (runOne cfg u i).2 r h

/-- C10: `run_simulation` returns exactly `run_count` results, and in
every result of a run with at least one month the final capital is the
last entry of the monthly path. -/
theorem C10_result_shape (cfg : SimulationConfig) (u : ℕ → ℚ) (n i : ℕ) :
    (run_simulation cfg u n i).length = n ∧
      ∀ r ∈ run_simulation cfg u n i, 1 ≤ cfg.months → r.2.getLast? = some r.1 := by
  refine ⟨run_simulation_length cfg u n i, ?_⟩
  intro r hr hm
  obtain ⟨j, rfl⟩ := run_simulation_mem cfg u n i r hr
  obtain ⟨m, hmm⟩ : ∃ m, cfg.months = m + 1 := ⟨cfg.months - 1, by omega⟩
  show (runMonths cfg u cfg.months (cfg.initial_capital, j)).2.getLast? =
    some (runMonths cfg u cfg.months (cfg.initial_capital, j)).1.1
  rw [hmm]
  exact runMonths_getLast cfg u m (cfg.initial_capital, j)

theorem C10_result_shape_witness :
    ((runOne cfgTiny uHalf 0).1 ∈ run_simulation cfgTiny uHalf 1 0) ∧ 1 ≤ cfgTiny.months ∧
      ((runOne cfgTiny uHalf 0).1.2.getLast? = some (runOne cfgTiny uHalf 0).1.1) :=
  have hmem : (runOne cfgTiny uHalf 0).1 ∈ run_simulation cfgTiny uHalf 1 0 :=
    List.mem_singleton_self _
  ⟨hmem, le_refl 1, (C10_result_shape cfgTiny uHalf 1 0).2 _ hmem (le_refl 1)⟩

lemma weighted_sum_pow (cfg : SimulationConfig) :
    ∀ n : ℕ,
      ((boolVecs n).map fun bs => pathWeight cfg bs * pathMul cfg bs).sum = meanFactor cfg ^ n := by
  intro n
  induction n with
  | zero => simp [boolVecs, pathWeight, pathMul, meanFactor]
  | succ n ih =>
    have htrue : ((fun bs => pathWeight cfg bs * pathMul cfg bs) ∘ List.cons true) =
        fun bs => cfg.win_probability * winFactor cfg * (pathWeight cfg bs * pathMul cfg bs) := by
      funext bs
      simp only [Function.comp_apply, pathWeight, pathMul, List.map_cons, List.prod_cons,
        probWeight, tradeFactor, if_true]
      ring
    have hfalse : ((fun bs => pathWeight cfg bs * pathMul cfg bs) ∘ List.cons false) =
        fun bs => (1 - cfg.win_probability) * lossFactor cfg *
          (pathWeight cfg bs * pathMul cfg bs) := by
      funext bs
      simp only [Function.comp_apply, pathWeight, pathMul, List.map_cons, List.prod_cons,
        probWeight, tradeFactor, Bool.false_eq_true, if_false]
      ring
    simp only [boolVecs, List.map_append, List.sum_append, List.map_map, htrue, hfalse]
    rw [List.sum_map_mul_left, List.sum_map_mul_left, ih, pow_succ, meanFactor]
    ring

lemma expectedFinal_eq (cfg : SimulationConfig) (n : ℕ) :
    expectedFinal cfg n = cfg.initial_capital * meanFactor cfg ^ n := by
  unfold expectedFinal
  rw [show (fun bs => pathWeight cfg bs * (cfg.initial_capital * pathMul cfg bs)) =
      fun bs => cfg.initial_capital * (pathWeight cfg bs * pathMul cfg bs) from
    funext fun bs => by ring]
  rw [List.sum_map_mul_left, weighted_sum_pow]

lemma decisionsOf_succ (cfg : SimulationConfig) (u : ℕ → ℚ) (i n : ℕ) :
    decisionsOf cfg u i (n + 1) =
      decide (u i < cfg.win_probability) :: decisionsOf cfg u (i + 1) n := rfl

lemma runTrades_eq_pathMul (cfg : SimulationConfig) (u : ℕ → ℚ) :
    ∀ (n : ℕ) (c : ℚ) (i : ℕ),
      (runTrades cfg u n (c, i)).1 = c * pathMul cfg (decisionsOf cfg u i n)
  | 0, c, i => by simp [runTrades, decisionsOf, pathMul]
  | n + 1, c, i => by
    show (runTrades cfg u n (trade cfg c (u i), i + 1)).1 = _
    rw [runTrades_eq_pathMul cfg u n (trade cfg c (u i)) (i + 1), decisionsOf_succ,
      trade_eq_mul]
    simp only [pathMul, List.map_cons, List.prod_cons]
    have ht : tradeFactor cfg (decide (u i < cfg.win_probability)) =
        if u i < cfg.win_probability then winFactor cfg else lossFactor cfg := by
      by_cases h : u i < cfg.win_probability <;> simp [tradeFactor, h]
    rw [ht]
    ring

lemma runTrades_add (cfg : SimulationConfig) (u : ℕ → ℚ) :
    ∀ (a b : ℕ) (s : ℚ × ℕ),
      runTrades cfg u (a + b) s = runTrades cfg u a (runTrades cfg u b s)
  | _, 0, _ => rfl
  | a, b + 1, s => by
    show runTrades cfg u (a + b) (trade cfg s.1 (u s.2), s.2 + 1) =
      runTrades cfg u a (runTrades cfg u b (trade cfg s.1 (u s.2), s.2 + 1))
    exact runTrades_add cfg u a b (trade cfg s.1 (u s.2), s.2 + 1)

lemma runMonths_fst_eq (cfg : SimulationConfig) (u : ℕ → ℚ) :
    ∀ (m : ℕ) (s : ℚ × ℕ),
      (runMonths cfg u m s).1 = runTrades cfg u (cfg.trades_per_month * m) s
  | 0, _ => rfl
  | m + 1, s => by
    show (runMonths cfg u m (runTrades cfg u cfg.trades_per_month s)).1 = _
    rw [runMonths_fst_eq cfg u m (runTrades cfg u cfg.trades_per_month s)]
    exact (runTrades_add cfg u (cfg.trades_per_month * m) cfg.trades_per_month s).symm

/-- C7: at every trade of every run — winning or losing — the position is
recomputed as the current capital times `position_fraction`, so each trade
multiplies the current capital by `winFactor` or `lossFactor`, and the
capital after any `n` trades is the starting capital times the product of
the per-trade factors of its draws.  (A position sized as a fixed fraction
of the initial capital would add or subtract a constant instead.) -/
theorem C7_position_compounds (cfg : SimulationConfig) (u : ℕ → ℚ) (n : ℕ) (c : ℚ) (i : ℕ) :
    (runTrades cfg u (n + 1) (c, i)).1 =
      (runTrades cfg u n (c, i)).1 *
        (if u (i + n) < cfg.win_probability then winFactor cfg else lossFactor cfg) ∧
      (runTrades cfg u n (c, i)).1 = c * pathMul cfg (decisionsOf cfg u i n) := by
  constructor
  · induction n generalizing c i with
    | zero =>
      show trade cfg c (u i) = _
      rw [trade_eq_mul, Nat.add_zero]
      rfl
    | succ n ih =>
      show (runTrades cfg u (n + 1) (trade cfg c (u i), i + 1)).1 = _
      rw [ih (trade cfg c (u i)) (i + 1)]
      have h1 : i + 1 + n = i + (n + 1) := by omega
      rw [h1]
      rfl
  · exact runTrades_eq_pathMul cfg u n c i

/-- C8: for the source's concrete configuration (capital 50000, 25%
position, 85% win rate, 5% premium, 50% take-profit, 0.3 loss multiplier,
4 trades for 36 months = 144 trades), the final capital of a run is the
initial capital times the product of per-trade factors determined by the
draws, and its expectation over the draws lies between 1.5 and 2.5 times
the initial capital. -/
theorem C8_expected_final_in_range (u : ℕ → ℚ) (i : ℕ) :
    (runOne mmmConfig u i).1.1 =
        mmmConfig.initial_capital * pathMul mmmConfig (decisionsOf mmmConfig u i 144) ∧
      3/2 * mmmConfig.initial_capital ≤ expectedFinal mmmConfig 144 ∧
      expectedFinal mmmConfig 144 ≤ 5/2 * mmmConfig.initial_capital := by
  have hm : meanFactor mmmConfig = 4019/4000 := by
    norm_num [meanFactor, winFactor, lossFactor, mmmConfig, WIN_RATE, POSITION_SIZE,
      PREMIUM, TAKE_PROFIT, LOSS_MULT]
  refine ⟨?_, ?_, ?_⟩
  · show (runMonths mmmConfig u mmmConfig.months (mmmConfig.initial_capital, i)).1.1 = _
    rw [show (runMonths mmmConfig u mmmConfig.months (mmmConfig.initial_capital, i)).1.1 =
        ((runMonths mmmConfig u mmmConfig.months (mmmConfig.initial_capital, i)).1).1 from rfl,
      runMonths_fst_eq, runTrades_eq_pathMul,
      show mmmConfig.trades_per_month * mmmConfig.months = 144 from rfl]
  · rw [expectedFinal_eq, hm]
    show (3:ℚ)/2 * INITIAL_CAPITAL ≤ INITIAL_CAPITAL * ((4019:ℚ)/4000) ^ 144
    norm_num [INITIAL_CAPITAL]
  · rw [expectedFinal_eq, hm]
    show INITIAL_CAPITAL * ((4019:ℚ)/4000) ^ 144 ≤ 5/2 * INITIAL_CAPITAL
    norm_num [INITIAL_CAPITAL]

end MattyIce
